import Mathlib

/-!
Verification of the metalift front end against its specification.

Embedded source files:
  * src/frontend/python.py   - the Python-AST-to-IR translator (class Translator)
  * src/metalift/concrete.py - concrete execution and trace generation

The ir node module and the AnalysisResult class are imported by the source
but are not part of the given sources; they are modelled from the spec
(sections 3 and 4.5), as passive data carriers.  Python dynamic features are
made explicit: the mutable symbol table self.vars is threaded as a value,
Python exceptions become an Except monad, and random.Random becomes a tape
of natural numbers consumed one entry per primitive draw.
-/

set_option linter.unusedVariables false
set_option maxHeartbeats 4000000

namespace Metalift

/-- Python exceptions raised by the embedded code. -/
inductive PyErr where
  | typeError (msg : String)
  | nameError (msg : String)
  | keyError (key : String)
  | indexError
  | valueError
  | assertionError
  | zeroDivisionError
  | notImplementedError (msg : String)
  | implicitNone
deriving DecidableEq, Repr

/-- Modelled from the spec: a Var of the ir node module (absent from src/)
is a name plus a type descriptor (spec section 3).  The translator builds
the type by evaluating the text produced by parse_type; the type object is
modelled by that descriptor text. -/
structure Var where
  name : String
  ty : String
deriving DecidableEq, Repr

/-- The Python type object stored in an ir.Lit: bool, int, or None. -/
inductive LitTy where
  | boolTy
  | intTy
  | noneTy
deriving DecidableEq, Repr

/-- A literal value carried by an ir.Lit. -/
inductive LitVal where
  | int (n : Int)
  | bool (b : Bool)
  | noneVal
deriving DecidableEq, Repr

/-- IR binary operator tags.  The source uses functions of the Python
operator module as tags (operator.add, operator.floordiv, ...); the tag set
is modelled as an enumeration. -/
inductive BinTag where
  | add
  | sub
  | mul
  | floordiv
  | eq
  | lt
  | gt
  | le
  | ge
  | ne
deriving DecidableEq, Repr

/-- IR unary operator tags (the source uses the function operator.not_). -/
inductive UnTag where
  | notOp
deriving DecidableEq, Repr

/-- The payload of an ir.Branch: Break or Continue. -/
inductive BranchKind where
  | brk
  | cont
deriving DecidableEq, Repr

/-- Modelled from the spec: the ir node variants (spec section 3), together
with the raw values the visitor methods can produce: visit_Name returns the
bare identifier string and resolve returns a registered Var.  An ir.Block
is the ordered list of its statements, stored inline in the parent node. -/
inductive IRVal where
  | str (s : String)
  | varRef (v : Var)
  | lit (value : LitVal) (ty : LitTy)
  | binaryOp (op : BinTag) (left right : IRVal)
  | unaryOp (op : UnTag) (operand : IRVal)
  | call (fn : IRVal) (args : List IRVal)
  | choose (alts : List IRVal)
  | field (target : IRVal) (name : String)
  | listAccess (target index : IRVal) (third : Option IRVal)
  | unpack (e : IRVal)
  | assign (target : Var) (value : IRVal)
  | ifNode (cond : IRVal) (thenBlk elseBlk : List IRVal)
  | whileNode (cond : IRVal) (body : List IRVal)
  | returnNode (value : Option IRVal)
  | branch (kind : BranchKind)
  | fnDecl (name : String) (args : List Var) (rtype : String) (body : List IRVal)
  | program (importNames : List String) (fns : List IRVal)

/-- Constant values of ast.Constant nodes (the deprecated ast.Num and
ast.Str checks in the source match int and str constants). -/
inductive PyConst where
  | int (n : Int)
  | bool (b : Bool)
  | noneConst
  | str (s : String)
deriving DecidableEq, Repr

/-- The binary operator tokens of the Python ast module. -/
inductive PyBinOp where
  | add
  | sub
  | mult
  | div
  | floorDiv
  | mod
  | pow
  | matMult
  | lshift
  | rshift
  | bitOr
  | bitXor
  | bitAnd
deriving DecidableEq, Repr

/-- The unary operator tokens of the Python ast module. -/
inductive PyUnaryOp where
  | not
  | invert
  | uadd
  | usub
deriving DecidableEq, Repr

/-- The comparison operator tokens of the Python ast module. -/
inductive PyCmpOp where
  | eq
  | notEq
  | lt
  | ltE
  | gt
  | gtE
  | isOp
  | isNotOp
  | inOp
  | notInOp
deriving DecidableEq, Repr

/-- Annotation sub-trees consumed by Translator.parse_type.  The other
constructor stands for any ast shape outside the handled ones, carrying its
ast.dump text. -/
inductive TyAst where
  | name (id : String)
  | index (value : TyAst)
  | subscript (value slice : TyAst)
  | list (elts : List TyAst)
  | tuple (elts : List TyAst)
  | other (dump : String)

/-- Expression nodes of the Python ast subset the translator handles. -/
inductive PyExpr where
  | name (id : String)
  | const (value : PyConst)
  | binOp (left : PyExpr) (op : PyBinOp) (right : PyExpr)
  | unaryOp (op : PyUnaryOp) (operand : PyExpr)
  | compare (left : PyExpr) (ops : List PyCmpOp) (comparators : List PyExpr)
  | call (func : PyExpr) (args : List PyExpr)
  | attribute (value : PyExpr) (attr : String)
  | subscript (value : PyExpr) (slice : PyExpr)
  | starred (value : PyExpr)
  | index (value : PyExpr)

/-- Statement nodes of the Python ast subset the translator handles. -/
inductive PyStmt where
  | annAssign (target : String) (ann : TyAst) (value : Option PyExpr)
  | assign (targets : List PyExpr) (value : PyExpr)
  | ifStmt (test : PyExpr) (body orelse : List PyStmt)
  | whileStmt (test : PyExpr) (body : List PyStmt)
  | ret (value : Option PyExpr)
  | breakStmt
  | continueStmt
  | exprStmt (value : PyExpr)

/-- A formal parameter: name and type annotation (ast.arg). -/
structure PyArg where
  arg : String
  ann : TyAst

/-- An ast.FunctionDef: name, parameters, body, return annotation. -/
structure PyFunctionDef where
  name : String
  args : List PyArg
  body : List PyStmt
  returns : TyAst

/-- A module-level statement: a function definition, an import statement
(with its nonempty alias list split as first name and rest), or anything
else (ignored by visit_Module's scan). -/
inductive PyModItem where
  | fnItem (f : PyFunctionDef)
  | importStmt (firstName : String) (restNames : List String)
  | otherStmt

/-- An ast.Module: its body items. -/
structure PyModule where
  body : List PyModItem

/-- The per-function symbol table self.vars: a Python dict from names to
Vars, modelled as an association list where the most recent binding wins. -/
abbrev SymTab := List (String × Var)

/-- Dict lookup in self.vars. -/
def lookupVar (σ : SymTab) (x : String) : Option Var :=
  (σ.find? (fun p => p.1 == x)).map (fun p => p.2)

/-- Dict update self.vars with key v.name and value v. -/
def insertVar (σ : SymTab) (v : Var) : SymTab := (v.name, v) :: σ

def joinComma (ss : List String) : String := String.intercalate ", " ss

mutual
/-- Translator.parse_type: renders an annotation sub-tree to a textual type
descriptor, raising TypeError on an unhandled shape.  The source applies
eval to the result to obtain a type object (see evalTypeText). -/
def parse_type : TyAst → Except PyErr String
  | .name id => pure id
  | .index value => parse_type value
  | .subscript value slice => do
      let base ← parse_type value
      let elts ← parse_type slice
      pure (base ++ "[" ++ elts ++ "]")
  | .list elts => do
      let ss ← parse_typeList elts
      pure ("[" ++ joinComma ss ++ "]")
  | .tuple elts => do
      let ss ← parse_typeList elts
      pure (joinComma ss)
  | .other dump => Except.error (.typeError ("NYI: " ++ dump))

def parse_typeList : List TyAst → Except PyErr (List String)
  | [] => pure []
  | t :: ts => do
      let s ← parse_type t
      let ss ← parse_typeList ts
      pure (s :: ss)
end

/-- Modelled from the spec: the source evaluates the rendered descriptor
text with eval to obtain a Python type object (a dynamic-execution shortcut
per spec section 4.1); the type object is modelled by its descriptor text. -/
def evalTypeText (s : String) : String := s

/-- Translator.visit_Constant: bool is checked before int because True is
also an int in Python; int and None constants are the other handled cases;
any other constant (e.g. a string) raises TypeError. -/
def visit_Constant : PyConst → Except PyErr IRVal
  | .bool b => pure (.lit (.bool b) .boolTy)
  | .int n => pure (.lit (.int n) .intTy)
  | .noneConst => pure (.lit .noneVal .noneTy)
  | .str s => Except.error (.typeError ("NYI: " ++ s))

/-- The Choose-vs-Call decision of Translator.visit_Call: the callee is a
synthesis hole when it equals the bare name Choose, or when it is an
ir.Field whose target is the bare name ir and whose attribute is Choose. -/
def mkCallNode (fn : IRVal) (args : List IRVal) : IRVal :=
  match fn with
  | .str s => if s = "Choose" then .choose args else .call (.str s) args
  | .field (.str t) a =>
      if t = "ir" ∧ a = "Choose" then .choose args else .call (.field (.str t) a) args
  | f => .call f args

/-- Short description of an expression node kind, standing in for the
ast.dump text interpolated into the NYI error messages. -/
def PyExpr.kindName : PyExpr → String
  | .name _ => "Name"
  | .const _ => "Constant"
  | .binOp .. => "BinOp"
  | .unaryOp .. => "UnaryOp"
  | .compare .. => "Compare"
  | .call .. => "Call"
  | .attribute .. => "Attribute"
  | .subscript .. => "Subscript"
  | .starred _ => "Starred"
  | .index _ => "Index"

/-- The operator mapping of Translator.visit_BinOp: Add, Sub, Mult and Div
map to operator.add, operator.sub, operator.mul and operator.floordiv; any
other binary operator token has no rule (the visitor raises TypeError). -/
def binOpMap : PyBinOp → Option BinTag
  | .add => some .add
  | .sub => some .sub
  | .mult => some .mul
  | .div => some .floordiv
  | _ => none

/-- The operator mapping of Translator.visit_UnaryOp: only Not is handled,
mapping to operator.not_. -/
def unaryOpMap : PyUnaryOp → Option UnTag
  | .not => some .notOp
  | _ => none

/-- The operator mapping of Translator.visit_Compare: Eq, Lt, Gt, LtE, GtE
and NotEq map to the corresponding operator-module functions; any other
comparison token has no rule. -/
def cmpOpMap : PyCmpOp → Option BinTag
  | .eq => some .eq
  | .lt => some .lt
  | .gt => some .gt
  | .ltE => some .le
  | .gtE => some .ge
  | .notEq => some .ne
  | _ => none

/-- The ast.Name branch of Translator.resolve, factored out so the operand
dispatch in visit_BinOp stays structurally recursive: in value position
(is_var true) the identifier must already be registered in self.vars,
otherwise NameError; in callee position it is passed through unchecked. -/
def resolveName (σ : SymTab) (is_var : Bool) (id : String) : Except PyErr IRVal :=
  if is_var then
    match lookupVar σ id with
    | Option.none => Except.error (.nameError ("variable not found: " ++ id))
    | some v => pure (.varRef v)
  else pure (.str id)

mutual
/-- The expression dispatch of Translator.visit: one case per visit_X
method of the source (visit_Name, visit_Constant, visit_Attribute,
visit_BinOp, visit_UnaryOp, visit_Compare, visit_Call, visit_Subscript,
visit_Starred, visit_Index).  In visit_BinOp the source computes
resolve(operand) when the operand is an ast.Name and visit(operand)
otherwise; the name case appears here as resolveName, which is exactly
resolve at a Name. -/
def visitExpr (σ : SymTab) : PyExpr → Except PyErr IRVal
  | .name id => pure (.str id)
  | .const c => visit_Constant c
  | .attribute v a => do
      let t ← visitExpr σ v
      pure (.field t a)
  | .binOp l op r =>
      match binOpMap op with
      | Option.none => Except.error (.typeError "NYI; binary operator")
      | some tag => do
          let left ← match l with
            | .name id => resolveName σ true id
            | other => visitExpr σ other
          let right ← match r with
            | .name id => resolveName σ true id
            | other => visitExpr σ other
          pure (.binaryOp tag left right)
  | .unaryOp op operand =>
      match unaryOpMap op with
      | Option.none => Except.error (.typeError "NYI: unary operator")
      | some tag => do
          let e ← resolve σ true operand
          pure (.unaryOp tag e)
  | .compare left ops comparators =>
      if ops.length > 1 then Except.error (.typeError "NYI: comparison op list")
      else if comparators.length > 1 then Except.error (.typeError "NYI: comparator list")
      else
        match ops, comparators with
        | [], _ => Except.error .indexError
        | [op], cs =>
            match cmpOpMap op with
            | Option.none => Except.error (.typeError "NYI: comparison operator")
            | some tag => do
                let l ← resolve σ true left
                match cs with
                | [c] => do
                    let r ← resolve σ true c
                    pure (.binaryOp tag l r)
                | _ => Except.error .indexError
        | _ :: _ :: _, _ => Except.error (.typeError "NYI: comparison op list")
  | .call f args => do
      let as ← visitExprList σ args
      let fn ← resolve σ false f
      pure (mkCallNode fn as)
  | .subscript v s => do
      let t ← visitExpr σ v
      let i ← visitExpr σ s
      pure (.listAccess t i Option.none)
  | .starred v => do
      let e ← visitExpr σ v
      pure (.unpack e)
  | .index v => visitExpr σ v

/-- Translator.resolve: a bare identifier in value position must already be
registered in self.vars; in callee position (is_var false) it is passed
through unchecked (the function-registry check is commented out in the
source).  Attribute, Constant (also via the deprecated Num and Str checks)
and Call nodes delegate back to visit; those delegations are inlined with
bodies identical to the visitExpr cases so that the recursion stays
structural.  A Subscript raises TypeError xxx, everything else NYI. -/
def resolve (σ : SymTab) (is_var : Bool) : PyExpr → Except PyErr IRVal
  | .name id => resolveName σ is_var id
  | .attribute v a => do
      let t ← visitExpr σ v
      pure (.field t a)
  | .const c => visit_Constant c
  | .call f args => do
      let as ← visitExprList σ args
      let fn ← resolve σ false f
      pure (mkCallNode fn as)
  | .subscript _ _ => Except.error (.typeError "xxx")
  | e => Except.error (.typeError ("NYI: " ++ PyExpr.kindName e))

/-- Elementwise lowering of an expression list (the list comprehension over
n.args in visit_Call), in order, failing on the first error. -/
def visitExprList (σ : SymTab) : List PyExpr → Except PyErr (List IRVal)
  | [] => pure []
  | e :: es => do
      let x ← visitExpr σ e
      let xs ← visitExprList σ es
      pure (x :: xs)
end

/-- The pattern self.resolve(e) if isinstance(e, ast.Name) else
self.visit(e), used by visit_AnnAssign and visit_Assign on the right-hand
side expression. -/
def resolveOrVisit (σ : SymTab) (e : PyExpr) : Except PyErr IRVal :=
  match e with
  | .name id => resolve σ true (.name id)
  | other => visitExpr σ other

/-- True exactly for the node classes in the non_exprs list of
Translator.visit_Return: ast.Name, ast.Num (an int constant) and ast.Str
(a string constant); the deprecated Num and Str classes do not match bool
or None constants. -/
def isReturnNonExpr : PyExpr → Bool
  | .name _ => true
  | .const (.int _) => true
  | .const (.str _) => true
  | _ => false

mutual
/-- The statement dispatch of Translator.visit: one case per visit_X
method (visit_AnnAssign, visit_Assign, visit_If, visit_While,
visit_Return, visit_Break, visit_Continue, visit_Expr).  self.vars is a
mutable dict on the translator object, so each statement returns the
updated symbol table; mutations made inside if and while bodies persist
after the statement. -/
def visitStmt (σ : SymTab) : PyStmt → Except PyErr (IRVal × SymTab)
  | .annAssign target ann value => do
      let txt ← parse_type ann
      let v : Var := ⟨target, evalTypeText txt⟩
      let σ₁ := insertVar σ v
      match value with
      | Option.none => pure (.varRef v, σ₁)
      | some e => do
          let rhs ← resolveOrVisit σ₁ e
          pure (.assign v rhs, σ₁)
  | .assign targets value => do
      let rhs ← resolveOrVisit σ value
      if targets.length > 1 then
        Except.error (.typeError "multi-assign NYI")
      else
        match targets with
        | [] => Except.error .indexError
        | t :: _ => do
            let key ← visitExpr σ t
            match key with
            | .str id =>
                match lookupVar σ id with
                | some v => pure (.assign v rhs, σ)
                | Option.none => Except.error (.keyError id)
            | _ => Except.error (.keyError "non-string key")
  | .ifStmt test body orelse => do
      let c ← visitExpr σ test
      let (thenBlk, σ₁) ← visitStmtList σ body
      let (elseBlk, σ₂) ← visitStmtList σ₁ orelse
      pure (.ifNode c thenBlk elseBlk, σ₂)
  | .whileStmt test body => do
      let c ← visitExpr σ test
      let (b, σ₁) ← visitStmtList σ body
      pure (.whileNode c b, σ₁)
  | .ret value =>
      match value with
      | Option.none => pure (.returnNode Option.none, σ)
      | some e => do
          let v ← if isReturnNonExpr e then resolve σ true e else visitExpr σ e
          pure (.returnNode (some v), σ)
  | .breakStmt => pure (.branch .brk, σ)
  | .continueStmt => pure (.branch .cont, σ)
  | .exprStmt e => do
      let v ← visitExpr σ e
      pure (v, σ)

/-- Elementwise lowering of a statement list (the list comprehensions over
n.body and n.orelse), in order, threading self.vars. -/
def visitStmtList (σ : SymTab) : List PyStmt → Except PyErr (List IRVal × SymTab)
  | [] => pure ([], σ)
  | s :: ss => do
      let (v, σ₁) ← visitStmt σ s
      let (vs, σ₂) ← visitStmtList σ₁ ss
      pure (v :: vs, σ₂)
end

/-- Translator.visit_arguments: for each parameter, parse its annotation,
evaluate the text to a type, build a Var and register it in self.vars, in
declaration order. -/
def visit_arguments (σ : SymTab) : List PyArg → Except PyErr (List Var × SymTab)
  | [] => pure ([], σ)
  | a :: rest => do
      let txt ← parse_type a.ann
      let v : Var := ⟨a.arg, evalTypeText txt⟩
      let σ₁ := insertVar σ v
      let (vs, σ₂) ← visit_arguments σ₁ rest
      pure (v :: vs, σ₂)

/-- Translator.visit_FunctionDef: resets self.vars to an empty dict,
registers the parameters, lowers the body statements in order into a
Block, then parses the return annotation (kept as text, not evaluated). -/
def visit_FunctionDef (f : PyFunctionDef) : Except PyErr IRVal := do
  let (args, σ₁) ← visit_arguments [] f.args
  let (body, _) ← visitStmtList σ₁ f.body
  let rtype ← parse_type f.returns
  pure (.fnDecl f.name args rtype body)

/-- The pre-registration loop of Translator.visit_Module: one pass over the
module body that maps every FunctionDef name to a None placeholder in
self.fns and appends the first alias name of every Import statement to
self.imports.  The dict self.fns is modelled by its ordered key list
(insertion order; re-registration keeps the first position). -/
def moduleScan (fns imports : List String) : List PyModItem → List String × List String
  | [] => (fns, imports)
  | .fnItem f :: rest =>
      moduleScan (if fns.contains f.name then fns else fns ++ [f.name]) imports rest
  | .importStmt first _ :: rest => moduleScan fns (imports ++ [first]) rest
  | .otherStmt :: rest => moduleScan fns imports rest

/-- The FunctionDef items of a module body, in declaration order. -/
def moduleFnDefs : List PyModItem → List PyFunctionDef
  | [] => []
  | .fnItem f :: rest => f :: moduleFnDefs rest
  | _ :: rest => moduleFnDefs rest

/-- The second loop of Translator.visit_Module: lower each FunctionDef, in
declaration order. -/
def visitFnDefs : List PyFunctionDef → Except PyErr (List IRVal)
  | [] => pure []
  | f :: rest => do
      let d ← visit_FunctionDef f
      let ds ← visitFnDefs rest
      pure (d :: ds)

/-- Translator.visit_Module: the pre-registration pass runs over the whole
body before any function body is lowered; then each FunctionDef is lowered.
The registry self.fns is never read afterwards (the registry check in
resolve is commented out in the source), so only the import list reaches
the Program node. -/
def visit_Module (m : PyModule) : Except PyErr IRVal := do
  let scanned := moduleScan [] [] m.body
  let decls ← visitFnDefs (moduleFnDefs m.body)
  pure (.program scanned.2 decls)

/-- Python's operator.floordiv on ints, the function visit_BinOp stores as
the tag for ast.Div: floor division (rounding toward negative infinity,
Int.fdiv), raising ZeroDivisionError on a zero divisor. -/
def floordivSem (a b : Int) : Except PyErr Int :=
  if b = 0 then Except.error .zeroDivisionError
  else pure (Int.fdiv a b)

/-! ## src/metalift/concrete.py -/

/-- Model of random.Random: an infinite tape of natural numbers with a
cursor; each primitive draw consumes one entry.  A uniform tape entry
induces the library's uniform draw: randint lo hi returns
lo + entry mod (hi - lo + 1) and choice picks index entry mod length. -/
structure RState where
  tape : Nat → Nat
  pos : Nat

/-- Consume one tape entry. -/
def draw (r : RState) : Nat × RState := (r.tape r.pos, ⟨r.tape, r.pos + 1⟩)

/-- random.Random.randint lo hi: uniform over the inclusive range lo..hi;
ValueError when the range is empty. -/
def randint (lo hi : Int) (r : RState) : Except PyErr (Int × RState) :=
  if hi < lo then Except.error .valueError
  else
    let (d, r₁) := draw r
    pure (lo + ((d % (hi - lo + 1).toNat : Nat) : Int), r₁)

/-- random.Random.choice: uniform over a sequence; IndexError when it is
empty. -/
def choice {α : Type} (l : List α) (r : RState) : Except PyErr (α × RState) :=
  match l with
  | [] => Except.error .indexError
  | x :: xs =>
      let (d, r₁) := draw r
      pure ((x :: xs).get ⟨d % (x :: xs).length, Nat.mod_lt _ (Nat.succ_pos _)⟩, r₁)

/-- The constant named _MaxInt in the source: 1 <<< (32 - 1), minus 1. -/
def MaxInt : Int := 2 ^ 31 - 1

/-- The constant named _MinInt in the source. -/
def MinInt : Int := -(2 ^ 31)

/-- The constant named _SpecialInt in the source. -/
def SpecialInt : List Int := [-1, 1, 0, MinInt, MaxInt]

/-- The constant named _SmallIntMin in the source. -/
def SmallIntMin : Int := -13

/-- The constant named _SmallIntMax in the source. -/
def SmallIntMax : Int := 13

/-- Modelled from the spec: the Type of metalift.ir consumed by the sampler
and the bridge (absent from src/); only its name attribute is read. -/
structure MLType where
  name : String
deriving DecidableEq, Repr

/-- Modelled from the spec: one argument of an AnalysisResult; only its
type attribute is read. -/
structure ArgVar where
  name : String
  type : MLType
deriving DecidableEq, Repr

/-- Modelled from the spec: the Analysis Descriptor of
metalift.analysis_new (absent from src/): function name, ordered argument
types, return type (spec section 3). -/
structure AnalysisResult where
  name : String
  arguments : List ArgVar
  return_type : MLType
deriving DecidableEq, Repr

/-- Generator.sample_int: draw a sampling class uniformly among All, Small
and Special, then draw from the class.  The source has no final else and
would implicitly return None there; that branch is unreachable because
choice always returns a member of the three-element list (see
sample_int_ok), and is modelled by the implicitNone marker. -/
def sample_int (r : RState) : Except PyErr (Int × RState) := do
  let (c, r₁) ← choice ["All", "Small", "Special"] r
  if c = "All" then randint MinInt MaxInt r₁
  else if c = "Small" then randint SmallIntMin SmallIntMax r₁
  else if c = "Special" then choice SpecialInt r₁
  else Except.error .implicitNone

/-- Generator.sample_tpe: only the type named Int has a sampling rule;
everything else raises NotImplementedError. -/
def sample_tpe (tpe : MLType) (r : RState) : Except PyErr (Int × RState) :=
  if tpe.name = "Int" then sample_int r
  else Except.error (.notImplementedError ("TODO: " ++ tpe.name))

/-- Generator.sample_args: one sample per argument type, in order (the
list comprehension over analysis.arguments). -/
def sample_args_list : List ArgVar → RState → Except PyErr (List Int × RState)
  | [], r => pure ([], r)
  | a :: rest, r => do
      let (v, r₁) ← sample_tpe a.type r
      let (vs, r₂) ← sample_args_list rest r₁
      pure (v :: vs, r₂)

/-- Generator.sample_args on an AnalysisResult. -/
def sample_args (analysis : AnalysisResult) (r : RState) :
    Except PyErr (List Int × RState) :=
  sample_args_list analysis.arguments r

/-- The loop of gen_traces: count times, sample one full argument list,
invoke the callable on it, and append the (return value, argument list)
record, in that order. -/
def gen_traces_loop (cfunc : List Int → Int) (analysis : AnalysisResult) :
    Nat → RState → Except PyErr (List (Int × List Int) × RState)
  | 0, _r => pure ([], _r)
  | Nat.succ n, r => do
      let (args, r₁) ← sample_args analysis r
      let ret := cfunc args
      let (rest, r₂) ← gen_traces_loop cfunc analysis n r₁
      pure ((ret, args) :: rest, r₂)

/-- gen_traces (src/metalift/concrete.py): assert count >= 0 (AssertionError
on a negative Python int count), then run the loop count times.  The
compiled callable is modelled as a pure function from the argument list to
the return value. -/
def gen_traces (cfunc : List Int → Int) (analysis : AnalysisResult)
    (r : RState) (count : Int) : Except PyErr (List (Int × List Int)) :=
  if count < 0 then Except.error .assertionError
  else (gen_traces_loop cfunc analysis count.toNat r).map Prod.fst

/-- The ctypes scalar types that the bridge can marshal. -/
inductive CType where
  | c_int
deriving DecidableEq, Repr

/-- The function named _meta_tpe_to_c_tpe in the source: only the type
named Int is marshaled (to ctypes.c_int); everything else raises
NotImplementedError. -/
def meta_tpe_to_c_tpe (tpe : MLType) : Except PyErr CType :=
  if tpe.name = "Int" then pure .c_int
  else Except.error (.notImplementedError ("TODO: " ++ tpe.name))

/-- The list comprehension inside _analysis_to_c_func, in order. -/
def meta_tpes_to_c_tpes : List MLType → Except PyErr (List CType)
  | [] => pure []
  | t :: ts => do
      let c ← meta_tpe_to_c_tpe t
      let cs ← meta_tpes_to_c_tpes ts
      pure (c :: cs)

/-- The function named _analysis_to_c_func in the source: marshal the
return type followed by the argument types (the ctypes.CFUNCTYPE signature
is positional: return type first). -/
def analysis_to_c_func (analysis : AnalysisResult) : Except PyErr (List CType) :=
  meta_tpes_to_c_tpes (analysis.return_type :: analysis.arguments.map (fun a => a.type))

/-- Modelled from the spec: the llvmlite binding layer used by
compile_function, an external library.  parseAndVerify covers
llvm.parse_assembly, mod.verify and the engine add_module /
finalize_object / run_static_constructors sequence (the process-wide
engine handle is part of this oracle); getFunctionAddress is
engine.get_function_address; natCall gives the native semantics of the
entry point at an address, for an all-integer signature. -/
structure LLVMOracle where
  parseAndVerify : String → Except PyErr Unit
  getFunctionAddress : String → Nat
  natCall : Nat → List Int → Int

/-- compile_function (src/metalift/concrete.py): parse and verify the
module text (file reading is external; the text is passed directly), load
it into the engine, resolve the entry symbol named by the analysis, then
build the ctypes marshaling signature from the analysis types - failing
there, before the callable exists - and wrap the native entry point as a
callable. -/
def compile_function (o : LLVMOracle) (llvm_ir : String)
    (analysis : AnalysisResult) : Except PyErr (List Int → Int) := do
  let _ ← o.parseAndVerify llvm_ir
  let func_ptr := o.getFunctionAddress analysis.name
  let _sig ← analysis_to_c_func analysis
  pure (fun args => o.natCall func_ptr args)

end Metalift

namespace Metalift

theorem exceptBind_ok {ε α β : Type} (a : α) (f : α → Except ε β) :
    (Except.ok a >>= f : Except ε β) = f a := rfl

theorem exceptBind_error {ε α β : Type} (e : ε) (f : α → Except ε β) :
    ((Except.error e : Except ε α) >>= f) = Except.error e := rfl

theorem exceptPure_def {ε α : Type} (a : α) : (pure a : Except ε α) = Except.ok a := rfl

theorem exceptBind_pure {ε α β : Type} (a : α) (f : α → Except ε β) :
    ((pure a : Except ε α) >>= f) = f a := rfl

/-- True exactly on ast.Name nodes. -/
def PyExpr.isName : PyExpr → Bool
  | .name _ => true
  | _ => false

theorem visitExprList_length (σ : SymTab) :
    ∀ (es : List PyExpr) (vs : List IRVal), visitExprList σ es = pure vs → vs.length = es.length := by
  intro es
  induction es with
  | nil =>
      intro vs h
      simp only [visitExprList, exceptPure_def, Except.ok.injEq] at h
      subst h; rfl
  | cons e es ih =>
      intro vs h
      simp only [visitExprList] at h
      cases hx : visitExpr σ e with
      | error err => rw [hx, exceptBind_error] at h; exact absurd h (by simp [exceptPure_def])
      | ok x =>
          rw [hx, exceptBind_ok] at h
          cases hxs : visitExprList σ es with
          | error err => rw [hxs, exceptBind_error] at h; exact absurd h (by simp [exceptPure_def])
          | ok xs =>
              rw [hxs, exceptBind_ok] at h
              simp only [exceptPure_def, Except.ok.injEq] at h
              subst h
              simp [ih xs hxs]

/-- C2: referencing a bare identifier in value position before it is
registered in the function's symbol table raises the UndeclaredVariable
NameError; registering it first (as a parameter, or as an annotated
declaration) and then referencing it succeeds and yields a reference to
the registered Var. -/
theorem undeclared_variable_rule (σ : SymTab) (x : String) (v : Var)
    (fn : String) (ann rtAnn : TyAst) (t u : String) :
    (lookupVar σ x = Option.none →
      resolve σ true (.name x) =
        Except.error (.nameError ("variable not found: " ++ x))) ∧
    (lookupVar σ x = some v → resolve σ true (.name x) = pure (.varRef v)) ∧
    (parse_type ann = pure t → parse_type rtAnn = pure u →
      visit_FunctionDef ⟨fn, [⟨x, ann⟩], [.ret (some (.name x))], rtAnn⟩ =
        pure (.fnDecl fn [⟨x, t⟩] u [.returnNode (some (.varRef ⟨x, t⟩))])) ∧
    (parse_type ann = pure t → parse_type rtAnn = pure u →
      visit_FunctionDef ⟨fn, [], [.annAssign x ann Option.none, .ret (some (.name x))], rtAnn⟩ =
        pure (.fnDecl fn [] u [.varRef ⟨x, t⟩, .returnNode (some (.varRef ⟨x, t⟩))])) := by
  refine ⟨fun h => by simp [resolve, resolveName, h],
          fun h => by simp [resolve, resolveName, h], ?_, ?_⟩
  · intro h1 h2
    simp [visit_FunctionDef, visit_arguments, h1, h2, exceptBind_ok, exceptPure_def,
      evalTypeText, insertVar, visitStmtList, visitStmt, isReturnNonExpr, resolve,
      resolveName, resolveOrVisit, lookupVar]
  · intro h1 h2
    simp [visit_FunctionDef, visit_arguments, h1, h2, exceptBind_ok, exceptPure_def,
      evalTypeText, insertVar, visitStmtList, visitStmt, isReturnNonExpr, resolve,
      resolveName, resolveOrVisit, lookupVar]

theorem undeclared_variable_rule_witness :
    (resolve [] true (.name "y") =
      Except.error (.nameError ("variable not found: " ++ "y"))) ∧
    (visit_FunctionDef ⟨"f", [⟨"y", .name "int"⟩], [.ret (some (.name "y"))], .name "int"⟩ =
      pure (.fnDecl "f" [⟨"y", "int"⟩] "int" [.returnNode (some (.varRef ⟨"y", "int"⟩))])) ∧
    (visit_FunctionDef ⟨"g", [], [.annAssign "y" (.name "int") Option.none,
        .ret (some (.name "y"))], .name "int"⟩ =
      pure (.fnDecl "g" [] "int" [.varRef ⟨"y", "int"⟩,
        .returnNode (some (.varRef ⟨"y", "int"⟩))])) := by
  have h := undeclared_variable_rule [] "y" ⟨"y", "int"⟩ "f" (.name "int") (.name "int") "int" "int"
  have h2 := undeclared_variable_rule [] "y" ⟨"y", "int"⟩ "g" (.name "int") (.name "int") "int" "int"
  exact ⟨h.1 rfl, h.2.2.1 rfl rfl, h2.2.2.2 rfl rfl⟩

/-- C1, counterexample: an operand of a unary operation (and of a
comparison) that is not a bare identifier is not always recursively
lowered: the expression 1 + 2 lowers fine on its own, yet as the operand
of not (and as the left side of a comparison) translation fails with NYI,
because resolve has no rule for a BinOp operand. -/
theorem operand_lowering_counterexample :
    (visitExpr [] (.binOp (.const (.int 1)) .add (.const (.int 2))) =
      pure (.binaryOp .add (.lit (.int 1) .intTy) (.lit (.int 2) .intTy))) ∧
    (visitExpr [] (.unaryOp .not (.binOp (.const (.int 1)) .add (.const (.int 2)))) =
      Except.error (.typeError "NYI: BinOp")) ∧
    (visitExpr [] (.compare (.binOp (.const (.int 1)) .add (.const (.int 2))) [.lt]
        [.const (.int 0)]) =
      Except.error (.typeError "NYI: BinOp")) := ⟨rfl, rfl, rfl⟩

/-- C1, amended: for binary operations a bare-identifier operand is
resolved as a Var reference and every other operand is recursively
lowered; for unary and comparison operations every operand goes through
resolve, which resolves bare identifiers as Var references and lowers
attribute, constant and call operands exactly as the generic visitor does,
but raises a translation error for every other operand shape. -/
theorem operand_lowering (σ : SymTab) (op : PyBinOp) (tag : BinTag)
    (uop : PyUnaryOp) (utag : UnTag) (cop : PyCmpOp) (ctag : BinTag)
    (l r e : PyExpr) (id id2 : String) :
    (binOpMap op = some tag → PyExpr.isName l = false → PyExpr.isName r = false →
      visitExpr σ (.binOp l op r) = (do
        let lv ← visitExpr σ l
        let rv ← visitExpr σ r
        pure (.binaryOp tag lv rv))) ∧
    (binOpMap op = some tag →
      visitExpr σ (.binOp (.name id) op (.name id2)) = (do
        let lv ← resolve σ true (.name id)
        let rv ← resolve σ true (.name id2)
        pure (.binaryOp tag lv rv))) ∧
    (unaryOpMap uop = some utag →
      visitExpr σ (.unaryOp uop e) = (do
        let ev ← resolve σ true e
        pure (.unaryOp utag ev))) ∧
    (cmpOpMap cop = some ctag →
      visitExpr σ (.compare l [cop] [r]) = (do
        let lv ← resolve σ true l
        let rv ← resolve σ true r
        pure (.binaryOp ctag lv rv))) ∧
    (∀ v a, resolve σ true (.attribute v a) = visitExpr σ (.attribute v a)) ∧
    (∀ c, resolve σ true (.const c) = visitExpr σ (.const c)) ∧
    (∀ f args, resolve σ true (.call f args) = visitExpr σ (.call f args)) ∧
    (∀ v s, resolve σ true (.subscript v s) = Except.error (.typeError "xxx")) ∧
    (∀ l2 op2 r2, resolve σ true (.binOp l2 op2 r2) =
      Except.error (.typeError "NYI: BinOp")) ∧
    (∀ l2 ops cs, resolve σ true (.compare l2 ops cs) =
      Except.error (.typeError "NYI: Compare")) := by
  refine ⟨?_, ?_, ?_, ?_, ?_, ?_, ?_, ?_, ?_, ?_⟩
  · intro h hl hr
    conv_lhs => rw [visitExpr.eq_def]
    simp only [h]
    cases l <;> cases r <;> first
      | exact Bool.noConfusion hl
      | exact Bool.noConfusion hr
      | rfl
  · intro h
    conv_lhs => rw [visitExpr.eq_def]
    simp only [h]
    try rfl
  · intro h
    conv_lhs => rw [visitExpr.eq_def]
    simp only [h]
    try rfl
  · intro h
    conv_lhs => rw [visitExpr.eq_def]
    simp only [List.length_singleton, h]
    try rfl
  · intro v a
    simp only [resolve, visitExpr]
  · intro c
    simp only [resolve, visitExpr]
  · intro f args
    simp only [resolve, visitExpr]
  · intro v s
    simp only [resolve]
  · intro l2 op2 r2
    simp only [resolve, PyExpr.kindName]
    rfl
  · intro l2 ops cs
    simp only [resolve, PyExpr.kindName]
    rfl

theorem operand_lowering_witness :
    (visitExpr [] (.binOp (.const (.int 1)) .add (.const (.int 2))) = (do
      let lv ← visitExpr [] (.const (.int 1))
      let rv ← visitExpr [] (.const (.int 2))
      pure (.binaryOp .add lv rv))) ∧
    (visitExpr [] (.unaryOp .not (.name "q")) = (do
      let ev ← resolve [] true (.name "q")
      pure (.unaryOp .notOp ev))) ∧
    (visitExpr [] (.compare (.name "q") [.lt] [.name "w"]) = (do
      let lv ← resolve [] true (.name "q")
      let rv ← resolve [] true (.name "w")
      pure (.binaryOp .lt lv rv))) := by
  have h := operand_lowering [] .add .add .not .notOp .lt .lt
    (.name "q") (.name "w") (.name "q") "a" "b"
  have h2 := operand_lowering [] .add .add .not .notOp .lt .lt
    (.const (.int 1)) (.const (.int 2)) (.name "q") "a" "b"
  exact ⟨h2.1 rfl rfl rfl, h.2.2.1 rfl, h.2.2.2.1 rfl⟩

/-- C3, counterexample: a call whose callee is an attribute path ending in
the recognized name Choose but whose base is not the bare name ir lowers
to Call, not to Choose: the translator requires the exact path ir.Choose. -/
theorem choose_path_counterexample :
    (visitExpr [] (.call (.attribute (.name "foo") "Choose") [.const (.int 1)]) =
      pure (.call (.field (.str "foo") "Choose") [.lit (.int 1) .intTy])) ∧
    (visitExpr [] (.call (.attribute (.name "foo") "Choose") [.const (.int 1)]) ≠
      pure (.choose [.lit (.int 1) .intTy])) := by
  refine ⟨rfl, ?_⟩
  intro h
  have h0 : (Except.ok (IRVal.call (.field (.str "foo") "Choose") [.lit (.int 1) .intTy]) :
      Except PyErr IRVal) = Except.ok (.choose [.lit (.int 1) .intTy]) := h
  exact IRVal.noConfusion (Except.ok.inj h0)

/-- C3, amended: a call with k argument expressions lowers to a Choose node
with exactly k owned alternatives in argument order when the callee is the
bare name Choose or the exact attribute path ir.Choose (base the bare name
ir); a call to any other callee - including an attribute path ending in
Choose over a different base - lowers to a Call node with the same k
arguments in order. -/
theorem choose_call_lowering (σ : SymTab) (args : List PyExpr) (as : List IRVal)
    (f base : String) :
    visitExprList σ args = pure as →
    (visitExpr σ (.call (.name "Choose") args) = pure (.choose as)) ∧
    (visitExpr σ (.call (.attribute (.name "ir") "Choose") args) = pure (.choose as)) ∧
    (f ≠ "Choose" → visitExpr σ (.call (.name f) args) = pure (.call (.str f) as)) ∧
    (base ≠ "ir" → visitExpr σ (.call (.attribute (.name base) "Choose") args) =
      pure (.call (.field (.str base) "Choose") as)) ∧
    as.length = args.length := by
  intro h
  refine ⟨?_, ?_, ?_, ?_, visitExprList_length σ args as h⟩
  · simp only [visitExpr, h, exceptBind_ok, resolve, resolveName, exceptPure_def, mkCallNode]
    rfl
  · simp only [visitExpr, h, exceptBind_ok, resolve, resolveName, exceptPure_def, mkCallNode]
    rfl
  · intro hf
    simp only [visitExpr, h, exceptBind_ok, resolve, resolveName, exceptPure_def, mkCallNode]
    simp [exceptBind_ok, hf]
  · intro hb
    simp only [visitExpr, h, exceptBind_ok, resolve, resolveName, exceptPure_def, mkCallNode]
    simp [exceptBind_ok, hb]

theorem choose_call_lowering_witness :
    (visitExpr [] (.call (.name "Choose") [.const (.int 7), .const (.bool true)]) =
      pure (.choose [.lit (.int 7) .intTy, .lit (.bool true) .boolTy])) ∧
    (visitExpr [] (.call (.name "g") [.const (.int 7), .const (.bool true)]) =
      pure (.call (.str "g") [.lit (.int 7) .intTy, .lit (.bool true) .boolTy])) ∧
    ([IRVal.lit (.int 7) .intTy, .lit (.bool true) .boolTy].length =
      [PyExpr.const (.int 7), .const (.bool true)].length) := by
  have h := choose_call_lowering [] [.const (.int 7), .const (.bool true)]
    [.lit (.int 7) .intTy, .lit (.bool true) .boolTy] "g" "foo" rfl
  exact ⟨h.1, h.2.2.1 (by decide), h.2.2.2.2⟩

end Metalift

namespace Metalift

/-- The first alias name of an import statement, if any (the name the
moduleScan pass appends). -/
def importName : PyModItem → Option String
  | .importStmt first _ => some first
  | _ => Option.none

theorem moduleScan_imports : ∀ (items : List PyModItem) (fns imps : List String),
    (moduleScan fns imps items).2 = imps ++ items.filterMap importName := by
  intro items
  induction items with
  | nil => intro fns imps; simp [moduleScan, importName]
  | cons it rest ih =>
      intro fns imps
      cases it with
      | fnItem f => simp [moduleScan, importName, ih]
      | importStmt first restNames => simp [moduleScan, importName, ih]
      | otherStmt => simp [moduleScan, importName, ih]

theorem moduleScan_mem : ∀ (items : List PyModItem) (fns imps : List String) (x : String),
    x ∈ fns → x ∈ (moduleScan fns imps items).1 := by
  intro items
  induction items with
  | nil => intro fns imps x hx; simpa [moduleScan] using hx
  | cons it rest ih =>
      intro fns imps x hx
      cases it with
      | fnItem f =>
          simp only [moduleScan]
          refine ih _ imps x ?_
          split
          · exact hx
          · exact List.mem_append_left _ hx
      | importStmt first restNames => simp only [moduleScan]; exact ih fns _ x hx
      | otherStmt => simp only [moduleScan]; exact ih fns imps x hx

theorem moduleScan_registers : ∀ (items : List PyModItem) (fns imps : List String)
    (f : PyFunctionDef), f ∈ moduleFnDefs items → f.name ∈ (moduleScan fns imps items).1 := by
  intro items
  induction items with
  | nil => intro fns imps f hf; simp [moduleFnDefs] at hf
  | cons it rest ih =>
      intro fns imps f hf
      cases it with
      | fnItem g =>
          simp only [moduleFnDefs, List.mem_cons] at hf
          rcases hf with rfl | hf
          · simp only [moduleScan]
            refine moduleScan_mem rest _ imps f.name ?_
            split
            · next hcontains => exact List.mem_of_elem_eq_true hcontains
            · exact List.mem_append_right _ (by simp)
          · simp only [moduleScan]
            exact ih _ _ f hf
      | importStmt first restNames =>
          simp only [moduleScan]
          exact ih fns _ f (by simpa [moduleFnDefs] using hf)
      | otherStmt =>
          simp only [moduleScan]
          exact ih fns imps f (by simpa [moduleFnDefs] using hf)

/-- C4: the module pass pre-registers every declared function name in the
whole-program registry (the value is a None placeholder, so the registry
is modelled by its key list) and collects the first alias name of
every import in declaration order, before any function body is lowered;
consequently a function body calling a function declared later in the
module - or itself - translates without error, with the callee kept as a
plain name reference. -/
theorem module_preregistration (m : PyModule) (fn1 fn2 c rt : String) :
    (∀ f ∈ moduleFnDefs m.body, f.name ∈ (moduleScan [] [] m.body).1) ∧
    ((moduleScan [] [] m.body).2 = m.body.filterMap importName) ∧
    (c ≠ "Choose" →
      visit_Module ⟨[.fnItem ⟨fn1, [], [.ret (some (.call (.name c) []))], .name rt⟩,
                     .fnItem ⟨fn2, [], [.ret Option.none], .name rt⟩]⟩ =
        pure (.program []
          [.fnDecl fn1 [] rt [.returnNode (some (.call (.str c) []))],
           .fnDecl fn2 [] rt [.returnNode Option.none]])) := by
  refine ⟨fun f hf => moduleScan_registers m.body [] [] f hf,
          moduleScan_imports m.body [] [], ?_⟩
  intro hc
  simp [visit_Module, moduleScan_imports, importName, moduleFnDefs, visitFnDefs,
    visit_FunctionDef, visit_arguments, visitStmtList, visitStmt, isReturnNonExpr,
    parse_type, visitExpr, visitExprList, resolve, resolveName, mkCallNode,
    exceptBind_ok, exceptPure_def, hc, List.filterMap]

theorem module_preregistration_witness :
    (∀ f ∈ moduleFnDefs [PyModItem.fnItem ⟨"f", [], [], .name "int"⟩],
      f.name ∈ (moduleScan [] [] [PyModItem.fnItem ⟨"f", [], [], .name "int"⟩]).1) ∧
    (visit_Module ⟨[.fnItem ⟨"f", [], [.ret (some (.call (.name "g") []))], .name "int"⟩,
                   .fnItem ⟨"g", [], [.ret Option.none], .name "int"⟩]⟩ =
      pure (.program []
        [.fnDecl "f" [] "int" [.returnNode (some (.call (.str "g") []))],
         .fnDecl "g" [] "int" [.returnNode Option.none]])) := by
  have h := module_preregistration ⟨[.fnItem ⟨"f", [], [], .name "int"⟩]⟩ "f" "g" "g" "int"
  have h2 := module_preregistration ⟨[]⟩ "f" "g" "g" "int"
  exact ⟨h.1, h2.2.2 (by decide)⟩

theorem fmod_bounds_of_neg (a : Int) {b : Int} (hb : b < 0) :
    b < a.fmod b ∧ a.fmod b ≤ 0 := by
  obtain ⟨n, rfl⟩ : ∃ n : Nat, b = Int.negSucc n := by
    cases b with
    | ofNat m => exact absurd hb (by exact Int.not_lt.mpr (Int.ofNat_nonneg m))
    | negSucc n => exact ⟨n, rfl⟩
  cases a with
  | ofNat m =>
      cases m with
      | zero =>
          simp [Int.fmod]
          omega
      | succ k =>
          show Int.negSucc n < Int.subNatNat (k % (n + 1)) n ∧ Int.subNatNat (k % (n + 1)) n ≤ 0
          rw [Int.subNatNat_eq_coe, Int.negSucc_eq]
          have hlt : k % (n + 1) < n + 1 := Nat.mod_lt _ (Nat.succ_pos n)
          omega
  | negSucc m =>
      show Int.negSucc n < -(((m + 1) % (n + 1) : Nat) : Int) ∧
        -(((m + 1) % (n + 1) : Nat) : Int) ≤ 0
      rw [Int.negSucc_eq]
      have hlt : (m + 1) % (n + 1) < n + 1 := Nat.mod_lt _ (Nat.succ_pos n)
      omega

/-- Int.fdiv is the rounding of the exact quotient toward negative
infinity: floor division. -/
theorem fdiv_eq_rat_floor (a b : Int) (hb : b ≠ 0) :
    Int.fdiv a b = ⌊(a : ℚ) / (b : ℚ)⌋ := by
  have hkey : a = b * Int.fdiv a b + Int.fmod a b := (Int.fdiv_add_fmod a b).symm
  symm
  rw [Int.floor_eq_iff]
  rcases lt_or_gt_of_ne hb with hneg | hpos
  · have hbnq : (b : ℚ) < 0 := by exact_mod_cast hneg
    obtain ⟨hr1, hr2⟩ := fmod_bounds_of_neg a hneg
    constructor
    · rw [le_div_iff_of_neg hbnq]
      have : a ≤ Int.fdiv a b * b := by nlinarith [hkey]
      exact_mod_cast this
    · rw [div_lt_iff_of_neg hbnq]
      have : (Int.fdiv a b + 1) * b < a := by nlinarith [hkey]
      exact_mod_cast this
  · have hbpq : (0 : ℚ) < b := by exact_mod_cast hpos
    have hr1 : 0 ≤ Int.fmod a b := Int.fmod_nonneg' a hpos
    have hr2 : Int.fmod a b < b := Int.fmod_lt_of_pos a hpos
    constructor
    · rw [le_div_iff₀ hbpq]
      have : Int.fdiv a b * b ≤ a := by nlinarith [hkey]
      exact_mod_cast this
    · rw [div_lt_iff₀ hbpq]
      have : a < (Int.fdiv a b + 1) * b := by nlinarith [hkey]
      exact_mod_cast this

/-- C5: the operator tables: Add, Sub, Mult and Div are the only binary
tokens with a rule, mapping to the add, subtract, multiply and
floor-division tags; Eq, Lt, Gt, LtE, GtE and NotEq map to the equal,
less-than, greater-than, less-or-equal, greater-or-equal and not-equal
tags; Not is the only unary token, mapping to logical negation; every
token outside this fixed set raises a translation error; and the
division tag denotes Python floor division, which rounds the exact
quotient toward negative infinity. -/
theorem operator_table (σ : SymTab) (l r e : PyExpr) (a b : Int) :
    (binOpMap .add = some .add ∧ binOpMap .sub = some .sub ∧
     binOpMap .mult = some .mul ∧ binOpMap .div = some .floordiv) ∧
    (binOpMap .floorDiv = Option.none ∧ binOpMap .mod = Option.none ∧
     binOpMap .pow = Option.none ∧ binOpMap .matMult = Option.none ∧
     binOpMap .lshift = Option.none ∧ binOpMap .rshift = Option.none ∧
     binOpMap .bitOr = Option.none ∧ binOpMap .bitXor = Option.none ∧
     binOpMap .bitAnd = Option.none) ∧
    (cmpOpMap .eq = some .eq ∧ cmpOpMap .lt = some .lt ∧ cmpOpMap .gt = some .gt ∧
     cmpOpMap .ltE = some .le ∧ cmpOpMap .gtE = some .ge ∧ cmpOpMap .notEq = some .ne) ∧
    (cmpOpMap .isOp = Option.none ∧ cmpOpMap .isNotOp = Option.none ∧
     cmpOpMap .inOp = Option.none ∧ cmpOpMap .notInOp = Option.none) ∧
    (unaryOpMap .not = some .notOp ∧ unaryOpMap .invert = Option.none ∧
     unaryOpMap .uadd = Option.none ∧ unaryOpMap .usub = Option.none) ∧
    (∀ op, binOpMap op = Option.none →
      visitExpr σ (.binOp l op r) = Except.error (.typeError "NYI; binary operator")) ∧
    (∀ uop, unaryOpMap uop = Option.none →
      visitExpr σ (.unaryOp uop e) = Except.error (.typeError "NYI: unary operator")) ∧
    (∀ cop, cmpOpMap cop = Option.none →
      visitExpr σ (.compare l [cop] [r]) =
        Except.error (.typeError "NYI: comparison operator")) ∧
    (b ≠ 0 → floordivSem a b = pure ⌊(a : ℚ) / (b : ℚ)⌋) := by
  refine ⟨⟨rfl, rfl, rfl, rfl⟩,
          ⟨rfl, rfl, rfl, rfl, rfl, rfl, rfl, rfl, rfl⟩,
          ⟨rfl, rfl, rfl, rfl, rfl, rfl⟩,
          ⟨rfl, rfl, rfl, rfl⟩,
          ⟨rfl, rfl, rfl, rfl⟩, ?_, ?_, ?_, ?_⟩
  · intro op hop
    conv_lhs => rw [visitExpr.eq_def]
    simp only [hop]
  · intro uop hop
    conv_lhs => rw [visitExpr.eq_def]
    simp only [hop]
  · intro cop hop
    conv_lhs => rw [visitExpr.eq_def]
    simp only [List.length_singleton, hop]
    try rfl
  · intro hb
    rw [floordivSem, if_neg hb, fdiv_eq_rat_floor a b hb]

theorem operator_table_witness :
    (binOpMap .div = some .floordiv) ∧
    (visitExpr [] (.binOp (.const (.int 1)) .floorDiv (.const (.int 2))) =
      Except.error (.typeError "NYI; binary operator")) ∧
    ((-7 : Int) ≠ 0 → floordivSem (-7) 2 = pure ⌊((-7 : Int) : ℚ) / ((2 : Int) : ℚ)⌋) ∧
    (floordivSem (-7) 2 = pure (-4)) := by
  have h := operator_table [] (.const (.int 1)) (.const (.int 2)) (.const (.int 1)) (-7) 2
  refine ⟨h.1.2.2.2, h.2.2.2.2.2.1 .floorDiv rfl, fun hh => h.2.2.2.2.2.2.2.2 (by decide), ?_⟩
  rw [h.2.2.2.2.2.2.2.2 (by decide)]
  norm_num

/-- C6: a plain assignment with more than one simultaneous target fails
with the explicit multi-assign error; a single target naming an
unregistered variable is a translation error (the dict lookup fails); a
single target naming a registered Var lowers to an Assign node
referencing that pre-existing Var. -/
theorem plain_assignment_rule (σ : SymTab) (value : PyExpr) (rhs : IRVal)
    (t1 t2 : PyExpr) (rest : List PyExpr) (x : String) (v : Var) :
    resolveOrVisit σ value = pure rhs →
    (visitStmt σ (.assign (t1 :: t2 :: rest) value) =
      Except.error (.typeError "multi-assign NYI")) ∧
    (lookupVar σ x = Option.none →
      visitStmt σ (.assign [.name x] value) = Except.error (.keyError x)) ∧
    (lookupVar σ x = some v →
      visitStmt σ (.assign [.name x] value) = pure (.assign v rhs, σ)) := by
  intro hv
  refine ⟨?_, ?_, ?_⟩
  · simp only [visitStmt]
    rw [hv, exceptBind_pure, if_pos (by simp only [List.length_cons]; omega)]
  · intro hx
    simp only [visitStmt]
    rw [hv, exceptBind_pure, if_neg (by simp),
      show visitExpr σ (.name x) = pure (.str x) from rfl, exceptBind_pure]
    simp only [hx]
  · intro hx
    simp only [visitStmt]
    rw [hv, exceptBind_pure, if_neg (by simp),
      show visitExpr σ (.name x) = pure (.str x) from rfl, exceptBind_pure]
    simp only [hx]

theorem plain_assignment_rule_witness :
    (visitStmt [] (.assign [.name "a", .name "b"] (.const (.int 1))) =
      Except.error (.typeError "multi-assign NYI")) ∧
    (visitStmt [] (.assign [.name "a"] (.const (.int 1))) =
      Except.error (.keyError "a")) ∧
    (visitStmt [("a", ⟨"a", "int"⟩)] (.assign [.name "a"] (.const (.int 1))) =
      pure (.assign ⟨"a", "int"⟩ (.lit (.int 1) .intTy), [("a", ⟨"a", "int"⟩)])) := by
  have h1 := plain_assignment_rule [] (.const (.int 1)) (.lit (.int 1) .intTy)
    (.name "a") (.name "b") [] "a" ⟨"a", "int"⟩ rfl
  have h2 := plain_assignment_rule [("a", ⟨"a", "int"⟩)] (.const (.int 1))
    (.lit (.int 1) .intTy) (.name "a") (.name "b") [] "a" ⟨"a", "int"⟩ rfl
  exact ⟨h1.1, h1.2.1 rfl, h2.2.2 rfl⟩

end Metalift

namespace Metalift

theorem visitExpr_name (σ : SymTab) (x : String) :
    visitExpr σ (.name x) = pure (.str x) := rfl

theorem visitExprList_append (σ : SymTab) : ∀ (as bs : List PyExpr) (la lb : List IRVal),
    visitExprList σ as = pure la → visitExprList σ bs = pure lb →
    visitExprList σ (as ++ bs) = pure (la ++ lb) := by
  intro as
  induction as with
  | nil =>
      intro bs la lb h1 h2
      simp only [visitExprList, exceptPure_def, Except.ok.injEq] at h1
      subst h1
      simpa using h2
  | cons e es ih =>
      intro bs la lb h1 h2
      simp only [visitExprList] at h1
      cases hx : visitExpr σ e with
      | error err => rw [hx, exceptBind_error] at h1; exact absurd h1 (by simp [exceptPure_def])
      | ok x =>
          rw [hx, exceptBind_ok] at h1
          cases hxs : visitExprList σ es with
          | error err =>
              rw [hxs, exceptBind_error] at h1
              exact absurd h1 (by simp [exceptPure_def])
          | ok xs =>
              rw [hxs, exceptBind_ok] at h1
              simp only [exceptPure_def, Except.ok.injEq] at h1
              subst h1
              rw [List.cons_append]
              simp only [visitExprList, hx, exceptBind_ok, ih bs xs lb hxs h2,
                exceptBind_pure, exceptPure_def, List.cons_append]

/-- C10: a bare identifier appearing as a call argument, or as the
condition of an if or while statement, is lowered by the generic name
visitor to the raw name string itself, with no symbol-table membership
check: for every symbol table (also one that does not register the name)
no UndeclaredVariable error is raised, and the resulting IR node holds a
plain string in that position rather than a reference to a registered
Var. -/
theorem generic_name_positions (σ σ₁ σ₂ : SymTab) (x f : String)
    (pre post : List PyExpr) (lpre lpost : List IRVal)
    (body orelse : List PyStmt) (b1 b2 : List IRVal) :
    (visitExpr σ (.name x) = pure (.str x)) ∧
    (visitExprList σ pre = pure lpre → visitExprList σ post = pure lpost →
      f ≠ "Choose" →
      visitExpr σ (.call (.name f) (pre ++ .name x :: post)) =
        pure (.call (.str f) (lpre ++ .str x :: lpost))) ∧
    (visitStmtList σ body = pure (b1, σ₁) → visitStmtList σ₁ orelse = pure (b2, σ₂) →
      visitStmt σ (.ifStmt (.name x) body orelse) = pure (.ifNode (.str x) b1 b2, σ₂)) ∧
    (visitStmtList σ body = pure (b1, σ₁) →
      visitStmt σ (.whileStmt (.name x) body) = pure (.whileNode (.str x) b1, σ₁)) := by
  refine ⟨rfl, ?_, ?_, ?_⟩
  · intro h1 h2 hf
    have hstep : visitExprList σ (PyExpr.name x :: post) = pure (IRVal.str x :: lpost) := by
      simp only [visitExprList, visitExpr_name, exceptBind_pure, exceptBind_ok, h2, exceptPure_def]
    have hargs := visitExprList_append σ pre (PyExpr.name x :: post) lpre
      (IRVal.str x :: lpost) h1 hstep
    simp only [visitExpr, hargs, exceptBind_pure, exceptBind_ok, resolve, resolveName,
      exceptPure_def, mkCallNode]
    simp [exceptBind_ok, hf]
  · intro h1 h2
    simp only [visitStmt, visitExpr_name, exceptBind_pure, h1, h2, exceptBind_ok,
      exceptPure_def]
  · intro h1
    simp only [visitStmt, visitExpr_name, exceptBind_pure, h1, exceptBind_ok, exceptPure_def]

theorem generic_name_positions_witness :
    (visitExpr [] (.name "u") = pure (.str "u")) ∧
    (visitExpr [] (.call (.name "g") ([] ++ .name "u" :: [])) =
      pure (.call (.str "g") ([] ++ .str "u" :: []))) ∧
    (visitStmt [] (.ifStmt (.name "u") [.breakStmt] []) =
      pure (.ifNode (.str "u") [.branch .brk] [], [])) ∧
    (visitStmt [] (.whileStmt (.name "u") [.breakStmt]) =
      pure (.whileNode (.str "u") [.branch .brk], [])) := by
  have h := generic_name_positions [] [] [] "u" "g" [] [] [] [] [.breakStmt] []
    [.branch .brk] []
  exact ⟨h.1, h.2.1 rfl rfl (by decide), h.2.2.1 rfl rfl, h.2.2.2 rfl⟩

theorem randint_bounds (lo hi : Int) (r : RState) (v : Int) (r' : RState) (hle : lo ≤ hi)
    (h : randint lo hi r = pure (v, r')) : lo ≤ v ∧ v ≤ hi := by
  simp only [randint, if_neg (not_lt.mpr hle), draw, exceptPure_def, Except.ok.injEq,
    Prod.mk.injEq] at h
  obtain ⟨hv, _⟩ := h
  subst hv
  have hn : 0 < (hi - lo + 1).toNat := by omega
  have hmod := Nat.mod_lt (r.tape r.pos) hn
  have hmodZ : ((r.tape r.pos % (hi - lo + 1).toNat : Nat) : Int) <
      ((hi - lo + 1).toNat : Int) := by exact_mod_cast hmod
  constructor <;> omega

theorem randint_reach (lo hi v : Int) (hlo : lo ≤ v) (hhi : v ≤ hi) :
    ∃ r₀ r₀', randint lo hi r₀ = pure (v, r₀') := by
  refine ⟨⟨fun _ => (v - lo).toNat, 0⟩, ⟨fun _ => (v - lo).toNat, 1⟩, ?_⟩
  have hle : lo ≤ hi := le_trans hlo hhi
  simp only [randint, if_neg (not_lt.mpr hle), draw]
  have hlt : (v - lo).toNat < (hi - lo + 1).toNat := by omega
  rw [Nat.mod_eq_of_lt hlt]
  have hv : lo + (((v - lo).toNat : Nat) : Int) = v := by omega
  rw [hv]

theorem choice_mem {α : Type} (l : List α) (r : RState) (x : α) (r' : RState)
    (h : choice l r = pure (x, r')) : x ∈ l := by
  cases l with
  | nil => simp [choice, exceptPure_def] at h
  | cons a as =>
      simp only [choice, exceptPure_def, Except.ok.injEq, Prod.mk.injEq] at h
      obtain ⟨hx, _⟩ := h
      exact hx ▸ List.get_mem _ _ _

theorem choice_reach {α : Type} (l : List α) (x : α) (hx : x ∈ l) :
    ∃ r₀ r₀', choice l r₀ = pure (x, r₀') := by
  obtain ⟨⟨i, hi⟩, rfl⟩ := List.mem_iff_get.mp hx
  cases l with
  | nil => simp at hi
  | cons a as =>
      refine ⟨⟨fun _ => i, 0⟩, ⟨fun _ => i, 1⟩, ?_⟩
      simp only [choice, draw]
      have hfin : (⟨i % (a :: as).length, Nat.mod_lt _ (Nat.succ_pos _)⟩ :
          Fin (a :: as).length) = ⟨i, hi⟩ := Fin.ext (Nat.mod_eq_of_lt hi)
      rw [hfin]

theorem sample_int_eval (r : RState) :
    sample_int r =
      (if r.tape r.pos % 3 = 0 then randint MinInt MaxInt ⟨r.tape, r.pos + 1⟩
       else if r.tape r.pos % 3 = 1 then
         randint SmallIntMin SmallIntMax ⟨r.tape, r.pos + 1⟩
       else choice SpecialInt ⟨r.tape, r.pos + 1⟩) := by
  have h3 : r.tape r.pos % 3 = 0 ∨ r.tape r.pos % 3 = 1 ∨ r.tape r.pos % 3 = 2 := by omega
  rcases h3 with h | h | h <;>
    simp [sample_int, choice, draw, h, exceptBind_ok, exceptBind_pure]

theorem sample_int_range (r : RState) (v : Int) (r' : RState)
    (h : sample_int r = pure (v, r')) : MinInt ≤ v ∧ v ≤ MaxInt := by
  rw [sample_int_eval] at h
  by_cases h0 : r.tape r.pos % 3 = 0
  · rw [if_pos h0] at h
    exact randint_bounds _ _ _ _ _ (by decide) h
  · rw [if_neg h0] at h
    by_cases h1 : r.tape r.pos % 3 = 1
    · rw [if_pos h1] at h
      have := randint_bounds _ _ _ _ _ (by decide) h
      constructor <;> [exact le_trans (by decide) this.1; exact le_trans this.2 (by decide)]
    · rw [if_neg h1] at h
      have hmem := choice_mem _ _ _ _ h
      simp only [SpecialInt, List.mem_cons, List.mem_singleton, List.not_mem_nil,
        or_false] at hmem
      rcases hmem with rfl | rfl | rfl | rfl | rfl <;> constructor <;> decide

theorem randint_ok (lo hi : Int) (r : RState) (hle : lo ≤ hi) :
    ∃ v r', randint lo hi r = pure (v, r') :=
  ⟨lo + ((r.tape r.pos % (hi - lo + 1).toNat : Nat) : Int), ⟨r.tape, r.pos + 1⟩, by
    simp only [randint, if_neg (not_lt.mpr hle), draw]⟩

theorem choice_ok {α : Type} (a : α) (as : List α) (r : RState) :
    ∃ v r', choice (a :: as) r = pure (v, r') :=
  ⟨_, _, rfl⟩

theorem sample_int_total (r : RState) : ∃ v r', sample_int r = pure (v, r') := by
  rw [sample_int_eval]
  by_cases h0 : r.tape r.pos % 3 = 0
  · rw [if_pos h0]
    exact randint_ok _ _ _ (by decide)
  · rw [if_neg h0]
    by_cases h1 : r.tape r.pos % 3 = 1
    · rw [if_pos h1]
      exact randint_ok _ _ _ (by decide)
    · rw [if_neg h1]
      simp only [SpecialInt]
      exact choice_ok _ _ _

theorem sample_int_ok (r : RState) :
    ∃ v r', sample_int r = pure (v, r') ∧ MinInt ≤ v ∧ v ≤ MaxInt := by
  obtain ⟨v, r', h⟩ := sample_int_total r
  exact ⟨v, r', h, sample_int_range r v r' h⟩

theorem sample_args_list_ok : ∀ (argsL : List ArgVar),
    (∀ a ∈ argsL, a.type.name = "Int") → ∀ r : RState,
    ∃ vs r', sample_args_list argsL r = pure (vs, r') ∧ vs.length = argsL.length ∧
      ∀ v ∈ vs, MinInt ≤ v ∧ v ≤ MaxInt := by
  intro argsL
  induction argsL with
  | nil => intro _ r; exact ⟨[], r, rfl, rfl, by simp⟩
  | cons a rest ih =>
      intro hall r
      obtain ⟨v, r₁, hv, hrange⟩ := sample_int_ok r
      obtain ⟨vs, r₂, hvs, hlen, hranges⟩ := ih (fun b hb => hall b (List.mem_cons_of_mem a hb)) r₁
      refine ⟨v :: vs, r₂, ?_, by simp [hlen], ?_⟩
      · have hname : a.type.name = "Int" := hall a (List.mem_cons_self a rest)
        simp only [sample_args_list, sample_tpe, if_pos hname, hv, exceptBind_pure,
          exceptBind_ok, hvs, exceptPure_def]
      · intro w hw
        rcases List.mem_cons.mp hw with rfl | hw
        · exact hrange
        · exact hranges w hw

theorem gen_traces_loop_ok (cfunc : List Int → Int) (analysis : AnalysisResult)
    (hall : ∀ a ∈ analysis.arguments, a.type.name = "Int") :
    ∀ (n : Nat) (r : RState),
    ∃ l r', gen_traces_loop cfunc analysis n r = pure (l, r') ∧ l.length = n ∧
      ∀ rec ∈ l, rec.1 = cfunc rec.2 := by
  intro n
  induction n with
  | zero => intro r; exact ⟨[], r, rfl, rfl, by simp⟩
  | succ n ih =>
      intro r
      obtain ⟨args, r₁, hargs, _, _⟩ := sample_args_list_ok analysis.arguments hall r
      obtain ⟨l, r₂, hl, hlen, hrec⟩ := ih r₁
      refine ⟨(cfunc args, args) :: l, r₂, ?_, by simp [hlen], ?_⟩
      · simp only [gen_traces_loop, sample_args, hargs, exceptBind_pure, exceptBind_ok, hl,
          exceptPure_def]
      · intro rec hmem
        rcases List.mem_cons.mp hmem with rfl | hmem
        · rfl
        · exact hrec rec hmem

/-- C7: gen_traces asserts a nonnegative count (AssertionError otherwise),
yields the empty sequence for count zero, and for a nonnegative count over
an all-integer analysis returns exactly count records in order, each
record being the pair of the callable's return value on a sampled argument
list and that argument list; each iteration samples one full argument
list, invokes the callable on it, and appends the record, in that order. -/
theorem gen_traces_spec (cfunc : List Int → Int) (analysis : AnalysisResult)
    (r r₁ : RState) (count : Int) (n : Nat) (args : List Int) :
    (gen_traces cfunc analysis r 0 = pure []) ∧
    (count < 0 → gen_traces cfunc analysis r count = Except.error .assertionError) ∧
    ((∀ a ∈ analysis.arguments, a.type.name = "Int") → 0 ≤ count →
      ∃ l, gen_traces cfunc analysis r count = pure l ∧ l.length = count.toNat ∧
        ∀ rec ∈ l, rec.1 = cfunc rec.2) ∧
    (sample_args analysis r = pure (args, r₁) →
      gen_traces_loop cfunc analysis (n + 1) r = (do
        let p ← gen_traces_loop cfunc analysis n r₁
        pure ((cfunc args, args) :: p.1, p.2))) := by
  refine ⟨rfl, ?_, ?_, ?_⟩
  · intro h
    simp [gen_traces, if_pos h]
  · intro hall hc
    obtain ⟨l, r', hl, hlen, hrec⟩ := gen_traces_loop_ok cfunc analysis hall count.toNat r
    refine ⟨l, ?_, hlen, hrec⟩
    simp only [gen_traces, if_neg (not_lt.mpr hc), hl]
    rfl
  · intro hs
    simp only [gen_traces_loop, sample_args] at hs ⊢
    rw [hs, exceptBind_pure]

theorem gen_traces_spec_witness :
    (gen_traces (fun _ => 0) ⟨"f", [⟨"a", ⟨"Int"⟩⟩], ⟨"Int"⟩⟩ ⟨fun _ => 0, 0⟩ 0 = pure []) ∧
    (gen_traces (fun _ => 0) ⟨"f", [⟨"a", ⟨"Int"⟩⟩], ⟨"Int"⟩⟩ ⟨fun _ => 0, 0⟩ (-1) =
      Except.error .assertionError) ∧
    (∃ l, gen_traces (fun _ => 0) ⟨"f", [⟨"a", ⟨"Int"⟩⟩], ⟨"Int"⟩⟩ ⟨fun _ => 0, 0⟩ 5 =
      pure l ∧ l.length = (5 : Int).toNat ∧ ∀ rec ∈ l, rec.1 = (fun _ => (0 : Int)) rec.2) := by
  have h := gen_traces_spec (fun _ => 0) ⟨"f", [⟨"a", ⟨"Int"⟩⟩], ⟨"Int"⟩⟩
    ⟨fun _ => 0, 0⟩ ⟨fun _ => 0, 0⟩ (-1) 0 []
  have h5 := gen_traces_spec (fun _ => 0) ⟨"f", [⟨"a", ⟨"Int"⟩⟩], ⟨"Int"⟩⟩
    ⟨fun _ => 0, 0⟩ ⟨fun _ => 0, 0⟩ 5 0 []
  exact ⟨h.1, h.2.1 (by decide), h5.2.2.1 (by simp) (by decide)⟩

/-- C8: the integer sampler first chooses a sampling class uniformly among
exactly the three classes All, Small and Special (one uniform choice over
the three-element class list); the full-range class draws uniformly from
the inclusive signed 32-bit range, the small-range class from -13..13
inclusive, and the special-boundary class from exactly the five values
-1, 1, 0, MinInt and MaxInt (each value of each class is reachable);
consequently every sampled integer lies within the signed 32-bit range. -/
theorem int_sampler_spec (r : RState) (v : Int) (r' : RState) :
    (MinInt = -(2 ^ 31) ∧ MaxInt = 2 ^ 31 - 1 ∧ SmallIntMin = -13 ∧ SmallIntMax = 13 ∧
      SpecialInt = [-1, 1, 0, MinInt, MaxInt]) ∧
    (∃ c r₁, choice ["All", "Small", "Special"] r = pure (c, r₁) ∧
      (c = "All" ∨ c = "Small" ∨ c = "Special")) ∧
    (randint MinInt MaxInt r = pure (v, r') → MinInt ≤ v ∧ v ≤ MaxInt) ∧
    (MinInt ≤ v → v ≤ MaxInt → ∃ r₀ r₀', randint MinInt MaxInt r₀ = pure (v, r₀')) ∧
    (randint SmallIntMin SmallIntMax r = pure (v, r') → -13 ≤ v ∧ v ≤ 13) ∧
    (-13 ≤ v → v ≤ 13 → ∃ r₀ r₀', randint SmallIntMin SmallIntMax r₀ = pure (v, r₀')) ∧
    (choice SpecialInt r = pure (v, r') →
      v = -1 ∨ v = 1 ∨ v = 0 ∨ v = MinInt ∨ v = MaxInt) ∧
    (v ∈ SpecialInt → ∃ r₀ r₀', choice SpecialInt r₀ = pure (v, r₀')) ∧
    (sample_int r = pure (v, r') → MinInt ≤ v ∧ v ≤ MaxInt) ∧
    (∃ w r₂, sample_int r = pure (w, r₂)) := by
  refine ⟨⟨rfl, rfl, rfl, rfl, rfl⟩, ?_, ?_, ?_, ?_, ?_, ?_, ?_, ?_, ?_⟩
  · obtain ⟨c, r₁, hc⟩ := choice_ok "All" ["Small", "Special"] r
    refine ⟨c, r₁, hc, ?_⟩
    have := choice_mem _ _ _ _ hc
    simpa using this
  · exact randint_bounds _ _ _ _ _ (by decide)
  · exact fun h1 h2 => randint_reach _ _ _ h1 h2
  · exact randint_bounds _ _ _ _ _ (by decide)
  · exact fun h1 h2 => randint_reach _ _ _ h1 h2
  · intro h
    have := choice_mem _ _ _ _ h
    simpa [SpecialInt] using this
  · exact fun h => choice_reach _ _ h
  · exact sample_int_range r v r'
  · exact sample_int_total r

theorem int_sampler_spec_witness :
    (∃ c r₁, choice ["All", "Small", "Special"] ⟨fun _ => 2, 0⟩ = pure (c, r₁) ∧
      (c = "All" ∨ c = "Small" ∨ c = "Special")) ∧
    ((7 : Int) ∈ SpecialInt → ∃ r₀ r₀', choice SpecialInt r₀ = pure (7, r₀')) ∧
    (MinInt ≤ (MaxInt : Int) → MaxInt ≤ MaxInt →
      ∃ r₀ r₀', randint MinInt MaxInt r₀ = pure (MaxInt, r₀')) ∧
    (∃ w r₂, sample_int ⟨fun _ => 2, 0⟩ = pure (w, r₂)) := by
  have h := int_sampler_spec ⟨fun _ => 2, 0⟩ MaxInt ⟨fun _ => 2, 1⟩
  have h7 := int_sampler_spec ⟨fun _ => 2, 0⟩ 7 ⟨fun _ => 2, 1⟩
  exact ⟨h.2.1, h7.2.2.2.2.2.2.2.1, fun a b => h.2.2.2.1 a b, h.2.2.2.2.2.2.2.2.2⟩

theorem meta_tpes_all_int : ∀ ts : List MLType, (∀ t ∈ ts, t.name = "Int") →
    meta_tpes_to_c_tpes ts = pure (ts.map fun _ => CType.c_int) := by
  intro ts
  induction ts with
  | nil => intro _; rfl
  | cons t rest ih =>
      intro hall
      have hname : t.name = "Int" := hall t (List.mem_cons_self t rest)
      simp only [meta_tpes_to_c_tpes, meta_tpe_to_c_tpe, if_pos hname, exceptBind_pure,
        exceptBind_ok, ih (fun u hu => hall u (List.mem_cons_of_mem t hu)), exceptPure_def,
        List.map_cons]

theorem meta_tpes_err : ∀ ts : List MLType, (∃ t ∈ ts, t.name ≠ "Int") →
    ∃ msg, meta_tpes_to_c_tpes ts = Except.error (.notImplementedError msg) := by
  intro ts
  induction ts with
  | nil => intro h; simp at h
  | cons t rest ih =>
      intro h
      by_cases ht : t.name = "Int"
      · obtain ⟨u, hu, hun⟩ := h
        rcases List.mem_cons.mp hu with rfl | hu
        · exact absurd ht hun
        · obtain ⟨msg, hmsg⟩ := ih ⟨u, hu, hun⟩
          refine ⟨msg, ?_⟩
          simp only [meta_tpes_to_c_tpes, meta_tpe_to_c_tpe, if_pos ht, exceptBind_pure,
            exceptBind_ok, hmsg, exceptBind_error]
      · refine ⟨"TODO: " ++ t.name, ?_⟩
        simp only [meta_tpes_to_c_tpes, meta_tpe_to_c_tpe, if_neg ht, exceptBind_error]

/-- C9: a type descriptor other than Int fails explicitly: the sampler
raises NotImplementedError at sampling time, and the bridge raises
NotImplementedError while compile_function builds the ctypes signature -
inside compile, before the callable exists - whereas an all-integer
analysis yields a total native callable (no type error can occur at call
time of the returned callable). -/
theorem unsupported_type_spec (tpe : MLType) (r : RState) (o : LLVMOracle)
    (llvm_ir : String) (analysis : AnalysisResult) :
    (tpe.name ≠ "Int" →
      sample_tpe tpe r = Except.error (.notImplementedError ("TODO: " ++ tpe.name))) ∧
    (o.parseAndVerify llvm_ir = pure () →
      (analysis.return_type.name ≠ "Int" ∨ ∃ a ∈ analysis.arguments, a.type.name ≠ "Int") →
      ∃ msg, compile_function o llvm_ir analysis =
        Except.error (.notImplementedError msg)) ∧
    (o.parseAndVerify llvm_ir = pure () → analysis.return_type.name = "Int" →
      (∀ a ∈ analysis.arguments, a.type.name = "Int") →
      compile_function o llvm_ir analysis =
        pure (fun args => o.natCall (o.getFunctionAddress analysis.name) args)) := by
  refine ⟨?_, ?_, ?_⟩
  · intro h
    simp [sample_tpe, if_neg h]
  · intro hparse hbad
    have hex : ∃ t ∈ analysis.return_type :: analysis.arguments.map (fun a => a.type),
        t.name ≠ "Int" := by
      rcases hbad with hret | ⟨a, ha, han⟩
      · exact ⟨analysis.return_type, List.mem_cons_self _ _, hret⟩
      · exact ⟨a.type, List.mem_cons_of_mem _ (List.mem_map_of_mem (fun a => a.type) ha), han⟩
    obtain ⟨msg, hmsg⟩ := meta_tpes_err _ hex
    refine ⟨msg, ?_⟩
    simp only [compile_function, analysis_to_c_func, hparse, exceptBind_pure, exceptBind_ok,
      hmsg, exceptBind_error]
  · intro hparse hret hargs
    have hall : ∀ t ∈ analysis.return_type :: analysis.arguments.map (fun a => a.type),
        t.name = "Int" := by
      intro t ht
      rcases List.mem_cons.mp ht with rfl | ht
      · exact hret
      · obtain ⟨a, ha, rfl⟩ := List.mem_map.mp ht
        exact hargs a ha
    simp only [compile_function, analysis_to_c_func, hparse, exceptBind_pure, exceptBind_ok,
      meta_tpes_all_int _ hall, exceptPure_def]

theorem unsupported_type_spec_witness :
    (sample_tpe ⟨"Float"⟩ ⟨fun _ => 0, 0⟩ =
      Except.error (.notImplementedError ("TODO: " ++ "Float"))) ∧
    (∃ msg, compile_function ⟨fun _ => pure (), fun _ => 0, fun _ _ => 0⟩ "mod"
        ⟨"f", [], ⟨"Float"⟩⟩ = Except.error (.notImplementedError msg)) ∧
    (compile_function ⟨fun _ => pure (), fun _ => 0, fun _ _ => 0⟩ "mod"
        ⟨"f", [⟨"a", ⟨"Int"⟩⟩], ⟨"Int"⟩⟩ =
      pure (fun args =>
        (⟨fun _ => pure (), fun _ => 0, fun _ _ => 0⟩ : LLVMOracle).natCall
          ((⟨fun _ => pure (), fun _ => 0, fun _ _ => 0⟩ : LLVMOracle).getFunctionAddress "f")
          args)) := by
  have h := unsupported_type_spec ⟨"Float"⟩ ⟨fun _ => 0, 0⟩
    ⟨fun _ => pure (), fun _ => 0, fun _ _ => 0⟩ "mod" ⟨"f", [], ⟨"Float"⟩⟩
  have h2 := unsupported_type_spec ⟨"Int"⟩ ⟨fun _ => 0, 0⟩
    ⟨fun _ => pure (), fun _ => 0, fun _ _ => 0⟩ "mod" ⟨"f", [⟨"a", ⟨"Int"⟩⟩], ⟨"Int"⟩⟩
  exact ⟨h.1 (by decide), h.2.1 rfl (Or.inl (by decide)), h2.2.2 rfl rfl (by simp)⟩

end Metalift
